import Mathlib

/-!
Verification of the cryptographic core of the blinded-ECDH-HSM demo.

The development shallowly embeds the TypeScript sources
`src/lib/crypto.ts` and `src/lib/hkdf.ts`.  Byte strings are `List Nat`
with each entry below 256 (JavaScript `Uint8Array` cells); JavaScript
strings are Lean `String`s; fallible operations return `Option` or
`Except`.  The HMAC-SHA256 primitive invoked through
`crypto.subtle.sign` is an external platform collaborator, so the HKDF
functions are parametrised over an `hmac : Bytes → Bytes → Bytes`
argument; the randomness drawn from `crypto.getRandomValues` and
`crypto.subtle.generateKey` is passed in explicitly, following the
specification's injected-capability design note.
-/

namespace BlindedECDH

/-- A JavaScript byte buffer: a list of byte values. -/
abbrev Bytes := List Nat

/-! ## Hex encoding and decoding (`crypto.ts` lines 14–30, duplicated in
`hkdf.ts` lines 54–68) -/

/-- One lowercase hex digit, as produced by JavaScript
`b.toString(16)` for a digit value below 16. -/
def hexCharOfNat (n : Nat) : Char :=
  if n < 10 then Char.ofNat (48 + n) else Char.ofNat (87 + n)

/-- The two hex characters of `b.toString(16).padStart(2, c0)` for a
byte value `b < 256`: high nibble then low nibble. -/
def byteToHexChars (b : Nat) : List Char :=
  [hexCharOfNat (b / 16), hexCharOfNat (b % 16)]

/-- The digit portion of `arrayBufferToHex`: each byte mapped to its
two-character lowercase hex form and joined. -/
def hexBody (b : Bytes) : List Char :=
  (b.map byteToHexChars).flatten

/-- Embedding of `arrayBufferToHex` (`crypto.ts` 15–20 and `hkdf.ts`
54–59, identical): the literal prefix `0x` followed by two lowercase
hex digits per byte. -/
def arrayBufferToHex (b : Bytes) : String :=
  String.mk ('0' :: 'x' :: hexBody b)

/-- Value of a hex digit character as accepted by JavaScript
`parseInt(·, 16)` and `BigInt`: `0`–`9`, `a`–`f`, `A`–`F`. -/
def hexDigitVal (c : Char) : Option Nat :=
  if 48 ≤ c.toNat ∧ c.toNat ≤ 57 then some (c.toNat - 48)
  else if 97 ≤ c.toNat ∧ c.toNat ≤ 102 then some (c.toNat - 87)
  else if 65 ≤ c.toNat ∧ c.toNat ≤ 70 then some (c.toNat - 55)
  else none

/-- Embedding of `hex.replace(quote 0x quote, quote quote)`:
JavaScript `String.replace` with a plain string pattern removes only
the first occurrence. -/
def removeFirst0x : List Char → List Char
  | '0' :: 'x' :: rest => rest
  | c :: rest => c :: removeFirst0x rest
  | [] => []

/-- Byte stored by `bytes[i/2] = parseInt(cleanHex.substr(i, 2), 16)`:
both digits valid gives the byte value; a valid first digit alone gives
that digit (`parseInt` stops at the first invalid character); an
invalid first digit gives `NaN`, which a `Uint8Array` cell stores
as `0`. -/
def parsePairByte (c1 c2 : Char) : Nat :=
  match hexDigitVal c1, hexDigitVal c2 with
  | some v1, some v2 => 16 * v1 + v2
  | some v1, none => v1
  | none, _ => 0

/-- The decoding loop of `hexToArrayBuffer`, consuming two characters
per byte. -/
def parsePairs : List Char → Bytes
  | c1 :: c2 :: rest => parsePairByte c1 c2 :: parsePairs rest
  | _ => []

/-- Embedding of `hexToArrayBuffer` (`crypto.ts` 23–30 and `hkdf.ts`
61–68, identical).  `new Uint8Array(cleanHex.length / 2)` throws a
`RangeError` when the cleaned length is odd (a fractional typed-array
length), modelled as `none`. -/
def hexToArrayBuffer (s : String) : Option Bytes :=
  let clean := removeFirst0x s.data
  if clean.length % 2 = 0 then some (parsePairs clean) else none

/-- Embedding of `BigInt(quote 0x quote + cleanHex)` as used by
`performECDH` and `privateKeyToPublicKey`: the whole cleaned string
must be nonempty hex digits, read most-significant first; otherwise
`BigInt` throws a `SyntaxError`, modelled as `none`. -/
def parseHexDigitsNat : List Char → Nat → Option Nat
  | [], acc => some acc
  | c :: rest, acc =>
    match hexDigitVal c with
    | some v => parseHexDigitsNat rest (16 * acc + v)
    | none => none

/-- Numeric value of a scalar hex string after stripping the first
`0x` occurrence, as computed by `BigInt` in the source. -/
def hexStringToNat (s : String) : Option Nat :=
  let clean := removeFirst0x s.data
  if clean = [] then none else parseHexDigitsNat clean 0

/-! ### Facts about the hex layer -/

theorem hexDigitVal_hexCharOfNat : ∀ d, d < 16 → hexDigitVal (hexCharOfNat d) = some d := by
  decide

theorem parsePairByte_byteToHexChars (x : Nat) (hx : x < 256) :
    parsePairByte (hexCharOfNat (x / 16)) (hexCharOfNat (x % 16)) = x := by
  have h1 := hexDigitVal_hexCharOfNat (x / 16) (by omega)
  have h2 := hexDigitVal_hexCharOfNat (x % 16) (by omega)
  simp only [parsePairByte, h1, h2]
  omega

theorem hexBody_cons (x : Nat) (b : Bytes) :
    hexBody (x :: b) = byteToHexChars x ++ hexBody b := by
  simp [hexBody]

theorem parsePairs_hexBody : ∀ b : Bytes, (∀ x ∈ b, x < 256) → parsePairs (hexBody b) = b := by
  intro b
  induction b with
  | nil => intro _; rfl
  | cons x rest ih =>
    intro hb
    rw [hexBody_cons]
    simp only [byteToHexChars, List.cons_append, List.nil_append, List.append_nil,
      List.append, parsePairs]
    rw [parsePairByte_byteToHexChars x (hb x (by simp)), ih (fun y hy => hb y (by simp [hy]))]

theorem hexBody_length : ∀ b : Bytes, (hexBody b).length = 2 * b.length := by
  intro b
  induction b with
  | nil => rfl
  | cons x rest ih =>
    rw [hexBody_cons]
    simp only [byteToHexChars, List.length_append, List.length_cons, List.length_nil, ih]
    omega

/-- C6: hex encoding followed by hex decoding returns the original
byte string, for every list of byte values. -/
theorem hexToArrayBuffer_arrayBufferToHex (b : Bytes) (hb : ∀ x ∈ b, x < 256) :
    hexToArrayBuffer (arrayBufferToHex b) = some b := by
  show hexToArrayBuffer (String.mk ('0' :: 'x' :: hexBody b)) = some b
  unfold hexToArrayBuffer
  have hstrip : removeFirst0x ('0' :: 'x' :: hexBody b) = hexBody b := rfl
  simp only [hstrip, hexBody_length]
  rw [if_pos (by omega)]
  rw [parsePairs_hexBody b hb]

/-- Witness for C6 at the concrete byte string `[0, 255, 16]`. -/
theorem hexToArrayBuffer_arrayBufferToHex_witness :
    (∀ x ∈ ([0, 255, 16] : Bytes), x < 256) ∧
    hexToArrayBuffer (arrayBufferToHex ([0, 255, 16])) = some ([0, 255, 16]) :=
  ⟨by decide, hexToArrayBuffer_arrayBufferToHex ([0, 255, 16]) (by decide)⟩

/-! ## UTF-8 text encoding

`hkdf.ts` converts the `salt` and `info` strings to bytes with
`new TextEncoder().encode(·)`.  `TextEncoder` is a platform API, so it
is modelled from the standard it implements: UTF-8 encoding of each
code point (Lean `Char` is a Unicode scalar value, matching what a
well-formed JavaScript string supplies). -/

/-- UTF-8 bytes of one Unicode scalar value. -/
def utf8EncodeChar (c : Char) : Bytes :=
  let n := c.toNat
  if n < 128 then [n]
  else if n < 2048 then [192 + n / 64, 128 + n % 64]
  else if n < 65536 then [224 + n / 4096, 128 + (n / 64) % 64, 128 + n % 64]
  else [240 + n / 262144, 128 + (n / 4096) % 64, 128 + (n / 64) % 64, 128 + n % 64]

/-- Embedding of `new TextEncoder().encode(s)`. -/
def utf8Encode (s : String) : Bytes :=
  (s.data.map utf8EncodeChar).flatten

theorem utf8EncodeChar_ne_nil (c : Char) : utf8EncodeChar c ≠ [] := by
  unfold utf8EncodeChar
  dsimp only
  split
  · simp
  · split
    · simp
    · split <;> simp

theorem utf8Encode_eq_nil_iff (s : String) : utf8Encode s = [] ↔ s = ("") := by
  constructor
  · intro h
    cases hs : s.data with
    | nil =>
      cases s with
      | mk d => simp_all
    | cons c rest =>
      exfalso
      unfold utf8Encode at h
      rw [hs] at h
      simp only [List.map_cons, List.flatten_cons] at h
      exact utf8EncodeChar_ne_nil c (List.append_eq_nil.mp h).1
  · intro h
    subst h
    rfl

/-! ## HKDF (`hkdf.ts`)

Both `hkdf` (lines 3–52) and `hkdfWithSteps` (lines 71–127) contain
their own copy of the extract-then-expand computation; each copy is
transcribed separately below so that their agreement is a theorem, not
a definition.  The `crypto.subtle` HMAC-SHA256 primitive is the `hmac`
parameter.  The expand loop runs `for (let i = 1; i <= n; i++)` with
`n = Math.ceil(length / 32)`, building `input = t ‖ infoBytes ‖ [i]`;
storing the counter `i` into a `Uint8Array` cell truncates it modulo
256. -/

/-- The expand loop of `hkdf`, iterating over the index list
`[1, …, n]` with the running block `t` and accumulator `okm`. -/
def hkdfLoop (hmac : Bytes → Bytes → Bytes) (prk info : Bytes) :
    List Nat → Bytes → Bytes → Bytes
  | [], _, okm => okm
  | i :: rest, t, okm =>
    let t2 := hmac prk (t ++ info ++ [i % 256])
    hkdfLoop hmac prk info rest t2 (okm ++ t2)

/-- Embedding of `hkdf` (`hkdf.ts` 3–52): extract with the salt bytes,
or a 32-byte zero block when the salt bytes are empty, then expand and
truncate to `length` bytes.  The source contains no bound check on
`length`. -/
def hkdf (hmac : Bytes → Bytes → Bytes) (ikm : Bytes) (salt info : String)
    (length : Nat) : Bytes :=
  let saltBytes := utf8Encode salt
  let infoBytes := utf8Encode info
  let extractKey := if 0 < saltBytes.length then saltBytes else List.replicate 32 0
  let prk := hmac extractKey ikm
  let n := (length + 31) / 32
  (hkdfLoop hmac prk infoBytes (List.range' 1 n) [] []).take length

/-- The expand loop of `hkdfWithSteps` (`hkdf.ts` 105–117), a second
copy of the same source text. -/
def hkdfLoopWS (hmac : Bytes → Bytes → Bytes) (prk info : Bytes) :
    List Nat → Bytes → Bytes → Bytes
  | [], _, okm => okm
  | i :: rest, t, okm =>
    let t2 := hmac prk (t ++ info ++ [i % 256])
    hkdfLoopWS hmac prk info rest t2 (okm ++ t2)

/-- Result record of `hkdfWithSteps`: the intermediate pseudorandom
key, the output keying material, and their hex renderings. -/
structure HkdfSteps where
  prk : Bytes
  okm : Bytes
  prkHex : String
  okmHex : String
  deriving Repr, DecidableEq

/-- Embedding of `hkdfWithSteps` (`hkdf.ts` 71–127): the same
extract-then-expand computation, additionally returning the PRK and
hex renderings of both artifacts. -/
def hkdfWithSteps (hmac : Bytes → Bytes → Bytes) (ikm : Bytes) (salt info : String)
    (length : Nat) : HkdfSteps :=
  let saltBytes := utf8Encode salt
  let infoBytes := utf8Encode info
  let extractKey := if 0 < saltBytes.length then saltBytes else List.replicate 32 0
  let prk := hmac extractKey ikm
  let n := (length + 31) / 32
  let finalOkm := (hkdfLoopWS hmac prk infoBytes (List.range' 1 n) [] []).take length
  ⟨prk, finalOkm, arrayBufferToHex prk, arrayBufferToHex finalOkm⟩

/-- A concrete stand-in for the platform HMAC-SHA256, used only to
instantiate witnesses: it returns 32 bytes like the real primitive. -/
def testHmac (key data : Bytes) : Bytes :=
  List.replicate 32 ((key.length + 7 * data.length + 1) % 256)

theorem testHmac_length (key data : Bytes) : (testHmac key data).length = 32 := by
  simp [testHmac]

/-! ## RFC 5869 expand, as the specification states it -/

/-- RFC block `T(i)` per the specification's words: `T(0)` is empty and
`T(i) = HMAC(prk, T(i-1) ‖ info ‖ byte(i))`, the counter being a single
byte (so meaningful for `i ≤ 255`). -/
def rfcT (hmac : Bytes → Bytes → Bytes) (prk info : Bytes) : Nat → Bytes
  | 0 => []
  | i + 1 => hmac prk (rfcT hmac prk info i ++ info ++ [i + 1])

/-- Concatenation `T(1) ‖ T(2) ‖ … ‖ T(k)` of the RFC blocks. -/
def rfcConcat (hmac : Bytes → Bytes → Bytes) (prk info : Bytes) : Nat → Bytes
  | 0 => []
  | k + 1 => rfcConcat hmac prk info k ++ rfcT hmac prk info (k + 1)

/-- RFC 5869 expand following the specification's words: concatenate
`T(1) ‖ … ‖ T(ceil(length/32))` and truncate to `length` bytes.  This
definition exists to be compared against the source-derived `hkdf`. -/
def rfcExpand (hmac : Bytes → Bytes → Bytes) (prk info : Bytes) (length : Nat) : Bytes :=
  (rfcConcat hmac prk info ((length + 31) / 32)).take length

theorem hkdfLoop_eq_rfcConcat (hmac : Bytes → Bytes → Bytes) (prk info : Bytes) :
    ∀ (m j : Nat), j + m ≤ 255 →
      hkdfLoop hmac prk info (List.range' (j + 1) m) (rfcT hmac prk info j)
        (rfcConcat hmac prk info j) = rfcConcat hmac prk info (j + m) := by
  intro m
  induction m with
  | zero => intro j _; rfl
  | succ m ih =>
    intro j hj
    have hmod : (j + 1) % 256 = j + 1 := Nat.mod_eq_of_lt (by omega)
    show hkdfLoop hmac prk info ((j + 1) :: List.range' (j + 2) m)
        (rfcT hmac prk info j) (rfcConcat hmac prk info j) = _
    simp only [hkdfLoop]
    rw [hmod]
    have h1 : hmac prk (rfcT hmac prk info j ++ info ++ [j + 1]) =
        rfcT hmac prk info (j + 1) := rfl
    have h2 : rfcConcat hmac prk info j ++ rfcT hmac prk info (j + 1) =
        rfcConcat hmac prk info (j + 1) := rfl
    rw [h1, h2]
    have hjm : j + (m + 1) = (j + 1) + m := by omega
    rw [hjm]
    exact ih (j + 1) (by omega)

theorem hkdfLoop_length (hmac : Bytes → Bytes → Bytes) (prk info : Bytes)
    (hl : ∀ k d, (hmac k d).length = 32) :
    ∀ (idxs : List Nat) (t okm : Bytes),
      (hkdfLoop hmac prk info idxs t okm).length = okm.length + 32 * idxs.length := by
  intro idxs
  induction idxs with
  | nil => intro t okm; simp [hkdfLoop]
  | cons i rest ih =>
    intro t okm
    simp only [hkdfLoop]
    rw [ih, List.length_append, hl]
    simp only [List.length_cons]
    omega

theorem hkdfLoopWS_eq_hkdfLoop (hmac : Bytes → Bytes → Bytes) (prk info : Bytes) :
    ∀ (idxs : List Nat) (t okm : Bytes),
      hkdfLoopWS hmac prk info idxs t okm = hkdfLoop hmac prk info idxs t okm := by
  intro idxs
  induction idxs with
  | nil => intro t okm; rfl
  | cons i rest ih =>
    intro t okm
    simp only [hkdfLoopWS, hkdfLoop]
    exact ih _ _

/-- Key selected by the extract step per the specification's words: the
UTF-8 bytes of the salt when the salt string is nonempty, a 32-byte
zero block when it is empty.  This definition exists to be compared
against the condition the source actually tests. -/
def specExtractKey (salt : String) : Bytes :=
  if salt = ("") then List.replicate 32 0 else utf8Encode salt

theorem extractKey_eq_spec (salt : String) :
    (if 0 < (utf8Encode salt).length then utf8Encode salt else List.replicate 32 0)
      = specExtractKey salt := by
  unfold specExtractKey
  by_cases h : salt = ("")
  · subst h
    rfl
  · rw [if_neg h]
    have hne : utf8Encode salt ≠ [] := fun hh => h ((utf8Encode_eq_nil_iff salt).mp hh)
    rw [if_pos (List.length_pos.mpr hne)]

/-! ## Claims about the HKDF engine -/

/-- C4: for every ikm, info, salt and length with 1 ≤ length ≤ 255·32,
the OKM computed by `hkdf` equals the RFC 5869 expand iteration over
its PRK: blocks `T(i) = HMAC(prk, T(i-1) ‖ info ‖ byte(i))` for
`i = 1 .. ceil(length/32)`, concatenated and truncated to exactly
`length` bytes. -/
theorem hkdf_eq_rfcExpand (hmac : Bytes → Bytes → Bytes) (ikm : Bytes)
    (salt info : String) (length : Nat) (h1 : 1 ≤ length) (h2 : length ≤ 255 * 32) :
    hkdf hmac ikm salt info length =
      rfcExpand hmac
        (hmac (if 0 < (utf8Encode salt).length then utf8Encode salt
               else List.replicate 32 0) ikm)
        (utf8Encode info) length := by
  unfold hkdf rfcExpand
  dsimp only
  congr 1
  have h0 := hkdfLoop_eq_rfcConcat hmac
    (hmac (if 0 < (utf8Encode salt).length then utf8Encode salt
           else List.replicate 32 0) ikm)
    (utf8Encode info) ((length + 31) / 32) 0 (by omega)
  simp only [Nat.zero_add] at h0
  exact h0

/-- Witness for C4 at length 32 with a concrete 32-byte HMAC stand-in. -/
theorem hkdf_eq_rfcExpand_witness :
    1 ≤ 32 ∧ 32 ≤ 255 * 32 ∧
      hkdf testHmac [1, 2] ("") ("ctx") 32 =
        rfcExpand testHmac
          (testHmac (if 0 < (utf8Encode ("")).length then utf8Encode ("")
                     else List.replicate 32 0) [1, 2])
          (utf8Encode ("ctx")) 32 :=
  ⟨by decide, by decide,
    hkdf_eq_rfcExpand testHmac [1, 2] ("") ("ctx") 32 (by decide) (by decide)⟩

/-- C5: the extract step of both `hkdf` and `hkdfWithSteps` computes
the PRK as HMAC over the ikm, keyed by the UTF-8 bytes of the salt when
the salt string is nonempty and by a 32-byte all-zero block when the
salt is the empty string. -/
theorem extract_uses_salt_or_zero_block (hmac : Bytes → Bytes → Bytes) (ikm : Bytes)
    (salt info : String) (length : Nat) :
    (hkdfWithSteps hmac ikm salt info length).prk = hmac (specExtractKey salt) ikm ∧
    hkdf hmac ikm salt info length =
      (hkdfLoop hmac (hmac (specExtractKey salt) ikm) (utf8Encode info)
        (List.range' 1 ((length + 31) / 32)) [] []).take length := by
  constructor
  · unfold hkdfWithSteps
    dsimp only
    rw [extractKey_eq_spec]
  · unfold hkdf
    dsimp only
    rw [extractKey_eq_spec]

/-- C8: the HKDF derivation is deterministic — identical inputs to
`hkdf` or `hkdfWithSteps` yield identical OKM and PRK.  The embedding
is a pure function of its arguments because the source's only external
calls are to the deterministic HMAC primitive, which both calls receive
identically. -/
theorem hkdf_deterministic (hmac : Bytes → Bytes → Bytes) (ikm1 ikm2 : Bytes)
    (salt1 salt2 info1 info2 : String) (l1 l2 : Nat)
    (hikm : ikm1 = ikm2) (hsalt : salt1 = salt2) (hinfo : info1 = info2) (hl : l1 = l2) :
    hkdf hmac ikm1 salt1 info1 l1 = hkdf hmac ikm2 salt2 info2 l2 ∧
    hkdfWithSteps hmac ikm1 salt1 info1 l1 = hkdfWithSteps hmac ikm2 salt2 info2 l2 := by
  subst hikm hsalt hinfo hl
  exact ⟨rfl, rfl⟩

/-- Witness for C8 at concrete duplicate arguments. -/
theorem hkdf_deterministic_witness :
    ([0] : Bytes) = [0] ∧
      (hkdf testHmac [0] ("abc") ("ctx") 32 = hkdf testHmac [0] ("abc") ("ctx") 32 ∧
       hkdfWithSteps testHmac [0] ("abc") ("ctx") 32 =
         hkdfWithSteps testHmac [0] ("abc") ("ctx") 32) :=
  ⟨rfl, hkdf_deterministic testHmac [0] [0] ("abc") ("abc") ("ctx") ("ctx") 32 32
    rfl rfl rfl rfl⟩

/-- C9: the `okm` field produced by `hkdfWithSteps` (used on the
producer side) is byte-for-byte the buffer returned by `hkdf` (used on
the validator side), and its hex rendering is the hex rendering of that
buffer: the two separately transcribed implementations compute the same
function. -/
theorem hkdfWithSteps_okm_eq_hkdf (hmac : Bytes → Bytes → Bytes) (ikm : Bytes)
    (salt info : String) (length : Nat) :
    (hkdfWithSteps hmac ikm salt info length).okm = hkdf hmac ikm salt info length ∧
    (hkdfWithSteps hmac ikm salt info length).okmHex =
      arrayBufferToHex (hkdf hmac ikm salt info length) := by
  unfold hkdfWithSteps hkdf
  dsimp only
  rw [hkdfLoopWS_eq_hkdfLoop]
  exact ⟨rfl, rfl⟩

/-- C2 (documenting the divergence): neither `hkdf` nor `hkdfWithSteps`
contains any bound check on the requested length; for every length
beyond the RFC bound 255·32 the call still returns output keying
material of exactly the requested size instead of failing with
`InvalidLength`. -/
theorem hkdf_no_length_bound (hmac : Bytes → Bytes → Bytes) (ikm : Bytes)
    (salt info : String) (length : Nat)
    (hl : ∀ k d, (hmac k d).length = 32) (hlen : 255 * 32 < length) :
    (hkdf hmac ikm salt info length).length = length ∧
    (hkdfWithSteps hmac ikm salt info length).okm.length = length := by
  have hloop : ∀ prk infoB, (hkdfLoop hmac prk infoB
      (List.range' 1 ((length + 31) / 32)) [] []).length = 32 * ((length + 31) / 32) := by
    intro prk infoB
    rw [hkdfLoop_length hmac prk infoB hl]
    simp [List.length_range']
  constructor
  · unfold hkdf
    dsimp only
    rw [List.length_take, hloop]
    omega
  · unfold hkdfWithSteps
    dsimp only
    rw [hkdfLoopWS_eq_hkdfLoop, List.length_take, hloop]
    omega

/-- Witness for C2's divergence theorem at the first out-of-bound
length 8161 = 255·32 + 1. -/
theorem hkdf_no_length_bound_witness :
    (∀ k d, (testHmac k d).length = 32) ∧ 255 * 32 < 8161 ∧
      ((hkdf testHmac [] ("") ("") 8161).length = 8161 ∧
       (hkdfWithSteps testHmac [] ("") ("") 8161).okm.length = 8161) :=
  ⟨testHmac_length, by decide,
    hkdf_no_length_bound testHmac [] ("") ("") 8161 testHmac_length (by decide)⟩

/-! ## Scalar generation and the elliptic-curve engine

`generatePrivateKey` (`crypto.ts` 33–37) draws its bytes from
`crypto.getRandomValues`; per the specification's injected-capability
design note the randomness is an explicit argument here.  The curve
arithmetic itself (`p256.getPublicKey`, `ProjectivePoint.multiply`)
lives in the external `@noble/curves` package, not under `src/`, so it
is modelled from the specification: scalar multiplication is the
natural scalar action on the curve group (specification §4.1 describes
the engine exactly through this group structure), represented by an
arbitrary additive commutative group with a distinguished generator.
The hex boundary of those functions is the hex layer proved above. -/

/-- Error kinds named by the specification §7. -/
inductive CryptoError where
  | InvalidScalar
  | InvalidPoint
  | MalformedEncoding
  | InvalidLength
  deriving DecidableEq, Repr

/-- Group order `n` of secp256r1 (P-256), from the specification's
choice of curve. -/
def nOrder : Nat :=
  0xffffffff00000000ffffffffffffffffbce6faada7179e84f3b9cac2fc632551

/-- Embedding of `generatePrivateKey` (`crypto.ts` 33–37): hex-encode
the 32 drawn bytes.  The source performs no validation whatsoever on
the drawn value. -/
def generatePrivateKey (randomBytes : Bytes) : String :=
  arrayBufferToHex randomBytes

/-- Big-endian numeric value of a byte string. -/
def beValue (b : Bytes) : Nat :=
  b.foldl (fun acc x => 256 * acc + x) 0

/-- Modelled from the spec: `p256.getPublicKey` of `@noble/curves`
(not under `src/`), as called by `privateKeyToPublicKey` (`crypto.ts`
179–202).  The hex scalar is parsed with `BigInt` (the embedded
`hexStringToNat`; a malformed string makes `BigInt` throw), the library
rejects a scalar outside `[1, n-1]` — the specification names this
failure `InvalidScalar` — and otherwise the result is `s * G` in the
curve group. -/
def privateKeyToPublicKey {G : Type} [AddCommGroup G] (gen : G)
    (privateKeyHex : String) : Except CryptoError G :=
  match hexStringToNat privateKeyHex with
  | none => Except.error CryptoError.MalformedEncoding
  | some s =>
    if s = 0 ∨ nOrder ≤ s then Except.error CryptoError.InvalidScalar
    else Except.ok (s • gen)

/-- Modelled from the spec: the scalar multiplication performed by
`performECDH` (`crypto.ts` 122–171) once the hex boundary is crossed —
`privateKey * publicKeyPoint` in the curve group. -/
def performECDHPt {G : Type} [AddCommGroup G] (d : Nat) (p : G) : G :=
  d • p

/-- Point-level `scalarMultiplication` (`crypto.ts` 113–116): the
source forwards directly to `performECDH`. -/
def scalarMultiplicationPt {G : Type} [AddCommGroup G] (b : Nat) (p : G) : G :=
  performECDHPt b p

/-- Point-level `privateKeyToPublicKey`: `s * G` for an in-range
scalar. -/
def privateKeyToPublicKeyPt {G : Type} [AddCommGroup G] (gen : G) (s : Nat) : G :=
  s • gen

/-- Point-level `calculateDbG` (`crypto.ts` 205–213): first `[b]G` via
`privateKeyToPublicKey`, then `ECDH(d, [b]G)`. -/
def calculateDbGPt {G : Type} [AddCommGroup G] (gen : G) (d b : Nat) : G :=
  performECDHPt d (privateKeyToPublicKeyPt gen b)

/-- Embedding of `createPrivateKeyFromHex` (`crypto.ts` 93–110): the
source generates a fresh P-256 key pair with
`crypto.subtle.generateKey` — its random draw is the injected
`randomKey` argument — and returns that pair's private key; its own
comment records that `privateKeyHex` is never used. -/
def createPrivateKeyFromHex (randomKey : Nat) (privateKeyHex : String) : Nat :=
  randomKey

/-! ## Claims about scalar generation and the curve engine -/

/-- C1: for in-range scalars `d`, `b`, `v`, the producer shared secret
`ECDH(d, scalarMultiplication(b, [v]G))` equals the validator shared
secret `ECDH(v, calculateDbG(d, b))`, and consequently HKDF over the
x-coordinate of either result (same salt and info, 32-byte output)
yields the same HMAC key on both sides. -/
theorem producer_validator_shared_secret_eq {G : Type} [AddCommGroup G] (gen : G)
    (d b v : Nat) (hd : 0 < d ∧ d < nOrder) (hb : 0 < b ∧ b < nOrder)
    (hv : 0 < v ∧ v < nOrder) :
    performECDHPt d (scalarMultiplicationPt b (privateKeyToPublicKeyPt gen v)) =
      performECDHPt v (calculateDbGPt gen d b) ∧
    ∀ (xCoord : G → Bytes) (hmac : Bytes → Bytes → Bytes) (salt info : String),
      hkdf hmac
          (xCoord (performECDHPt d (scalarMultiplicationPt b (privateKeyToPublicKeyPt gen v))))
          salt info 32 =
        hkdf hmac (xCoord (performECDHPt v (calculateDbGPt gen d b))) salt info 32 := by
  have key : performECDHPt d (scalarMultiplicationPt b (privateKeyToPublicKeyPt gen v)) =
      performECDHPt v (calculateDbGPt gen d b) := by
    show d • (b • (v • gen)) = v • (d • (b • gen))
    rw [smul_smul, smul_smul, smul_smul, smul_smul]
    have hmul : d * b * v = v * d * b := by ring
    rw [hmul]
  exact ⟨key, fun xCoord hmac salt info => by rw [key]⟩

/-- Witness for C1 with the integers as curve-group stand-in,
generator 1 and scalars 2, 3, 5. -/
theorem producer_validator_shared_secret_eq_witness :
    ((0 < 2 ∧ 2 < nOrder) ∧ (0 < 3 ∧ 3 < nOrder) ∧ (0 < 5 ∧ 5 < nOrder)) ∧
      performECDHPt 2 (scalarMultiplicationPt 3 (privateKeyToPublicKeyPt (1 : ℤ) 5)) =
        performECDHPt 5 (calculateDbGPt (1 : ℤ) 2 3) :=
  ⟨⟨⟨by decide, by decide⟩, ⟨by decide, by decide⟩, ⟨by decide, by decide⟩⟩,
    (producer_validator_shared_secret_eq (1 : ℤ) 2 3 5 ⟨by decide, by decide⟩
      ⟨by decide, by decide⟩ ⟨by decide, by decide⟩).1⟩

/-- C7: for every hex string that encodes the value zero,
`privateKeyToPublicKey` fails with `InvalidScalar` instead of returning
a point. -/
theorem privateKeyToPublicKey_zero_fails {G : Type} [AddCommGroup G] (gen : G)
    (hex : String) (h : hexStringToNat hex = some 0) :
    privateKeyToPublicKey gen hex = Except.error CryptoError.InvalidScalar := by
  unfold privateKeyToPublicKey
  rw [h]
  simp

/-- Witness for C7 at the encoding `0x00` of zero. -/
theorem privateKeyToPublicKey_zero_fails_witness :
    hexStringToNat ("0x00") = some 0 ∧
      privateKeyToPublicKey (1 : ℤ) ("0x00") = Except.error CryptoError.InvalidScalar :=
  ⟨by decide, privateKeyToPublicKey_zero_fails (1 : ℤ) ("0x00") (by decide)⟩

theorem parseHexDigitsNat_hexBody :
    ∀ (bs : Bytes) (acc : Nat), (∀ x ∈ bs, x < 256) →
      parseHexDigitsNat (hexBody bs) acc =
        some (bs.foldl (fun a x => 256 * a + x) acc) := by
  intro bs
  induction bs with
  | nil => intro acc _; rfl
  | cons x rest ih =>
    intro acc hb
    rw [hexBody_cons]
    have hx : x < 256 := hb x (by simp)
    have h1 := hexDigitVal_hexCharOfNat (x / 16) (by omega)
    have h2 := hexDigitVal_hexCharOfNat (x % 16) (by omega)
    simp only [byteToHexChars, List.cons_append, List.nil_append, List.append_nil,
      List.append, parseHexDigitsNat, h1, h2]
    have harith : 16 * (16 * acc + x / 16) + x % 16 = 256 * acc + x := by omega
    rw [harith, ih (256 * acc + x) (fun y hy => hb y (by simp [hy]))]
    rfl

/-- Counterexample to C3 as stated: the all-zero draw is not rejected —
`generatePrivateKey` returns the hex encoding of the scalar zero, and
the all-ones draw yields `2^256 - 1 ≥ n`, so returned scalars are
neither guaranteed nonzero nor below the group order. -/
theorem generatePrivateKey_zero_counterexample :
    hexStringToNat (generatePrivateKey (List.replicate 32 0)) = some 0 ∧
      hexStringToNat (generatePrivateKey (List.replicate 32 255)) = some (2 ^ 256 - 1) ∧
      nOrder ≤ 2 ^ 256 - 1 := by
  refine ⟨by decide, by decide, by decide⟩

/-- C3 as amended: `generatePrivateKey` hex-encodes whatever 32 bytes
the secure random source supplies, with no `InvalidScalar` rejection:
the scalar it returns is exactly the big-endian value of the draw,
whether or not that value is zero or at least the group order. -/
theorem generatePrivateKey_returns_raw_draw (bs : Bytes) (hlen : bs.length = 32)
    (hb : ∀ x ∈ bs, x < 256) :
    hexStringToNat (generatePrivateKey bs) = some (beValue bs) := by
  unfold generatePrivateKey arrayBufferToHex hexStringToNat
  have hstrip : removeFirst0x (String.mk ('0' :: 'x' :: hexBody bs)).data = hexBody bs := rfl
  rw [hstrip]
  have hne : hexBody bs ≠ [] := by
    intro hcontr
    have := hexBody_length bs
    rw [hcontr, hlen] at this
    simp at this
  rw [if_neg hne]
  exact parseHexDigitsNat_hexBody bs 0 hb

/-- Witness for the amended C3 at a concrete non-degenerate draw. -/
theorem generatePrivateKey_returns_raw_draw_witness :
    (List.replicate 31 0 ++ [7] : Bytes).length = 32 ∧
      (∀ x ∈ (List.replicate 31 0 ++ [7] : Bytes), x < 256) ∧
      hexStringToNat (generatePrivateKey (List.replicate 31 0 ++ [7])) =
        some (beValue (List.replicate 31 0 ++ [7])) :=
  ⟨by decide, by decide,
    generatePrivateKey_returns_raw_draw (List.replicate 31 0 ++ [7]) (by decide) (by decide)⟩

/-- C10: the key returned by `createPrivateKeyFromHex` does not depend
on the `privateKeyHex` argument — for the same platform random draw it
is identical across all inputs, being exactly the freshly generated
key, unrelated to the caller-supplied scalar. -/
theorem createPrivateKeyFromHex_ignores_argument (randomKey : Nat) (hexA hexB : String) :
    createPrivateKeyFromHex randomKey hexA = createPrivateKeyFromHex randomKey hexB ∧
    createPrivateKeyFromHex randomKey hexA = randomKey :=
  ⟨rfl, rfl⟩

end BlindedECDH
